import Mathlib

/-!
Verification development for `artngame_unity_upgrades_scraper.py`, a
Playwright-based scraper of the Unity Asset Store.  The pure data-handling
core of the script is embedded shallowly below:

* parsed JSON payloads become the inductive type `Json`, with Python
  truthiness (`truthy`) and Python `str()` rendering (`pyStr`);
* the three recursive JSON-walking extractors `extract_offer_rating`,
  `extract_upgrade_from` and `extract_asset_name` are translated
  line-by-line from the source;
* the response handler, the pagination loop, the batch orchestration, the
  publisher-file parsing, the CSV/TXT row construction and the append-only
  persistence helpers are embedded with the browser and file system
  abstracted into explicit inputs (page contents, file contents).

Python strings are modelled as Lean `String`s; where a proof needs to walk
the characters of a string the underlying `List Char` (`String.data`) is
used.  Python `set` values are modelled as deduplicated lists (`List.dedup`,
which keeps the first occurrence of each element; Python sets are unordered,
so any enumeration order is a faithful model of the set's contents) or as
`Finset`s when only membership matters.
-/

/-- Shallow embedding of a parsed JSON value (the result of Python
`response.json()`).  JSON numbers are modelled as integers; no claim in this
development depends on numeric values.  Python `None`/`True`/`False`
correspond to `null`/`bool true`/`bool false`; a Python `str` produced by
the program itself (rather than parsed from JSON) is also represented with
the `str` constructor, matching Python where both are the same `str` type. -/
inductive Json where
  | null : Json
  | bool : Bool → Json
  | num : Int → Json
  | str : String → Json
  | arr : List Json → Json
  | obj : List (String × Json) → Json

mutual
def jsonDecEq : (a b : Json) → Decidable (a = b)
  | .null, .null => .isTrue rfl
  | .bool x, .bool y =>
    match decEq x y with
    | .isTrue h => .isTrue (by rw [h])
    | .isFalse h => .isFalse (by intro hh; injection hh; contradiction)
  | .num x, .num y =>
    match decEq x y with
    | .isTrue h => .isTrue (by rw [h])
    | .isFalse h => .isFalse (by intro hh; injection hh; contradiction)
  | .str x, .str y =>
    match decEq x y with
    | .isTrue h => .isTrue (by rw [h])
    | .isFalse h => .isFalse (by intro hh; injection hh; contradiction)
  | .arr xs, .arr ys =>
    match jsonListDecEq xs ys with
    | .isTrue h => .isTrue (by rw [h])
    | .isFalse h => .isFalse (by intro hh; injection hh; contradiction)
  | .obj fs, .obj gs =>
    match jsonObjDecEq fs gs with
    | .isTrue h => .isTrue (by rw [h])
    | .isFalse h => .isFalse (by intro hh; injection hh; contradiction)
  | .null, .bool _ => .isFalse (fun h => nomatch h)
  | .null, .num _ => .isFalse (fun h => nomatch h)
  | .null, .str _ => .isFalse (fun h => nomatch h)
  | .null, .arr _ => .isFalse (fun h => nomatch h)
  | .null, .obj _ => .isFalse (fun h => nomatch h)
  | .bool _, .null => .isFalse (fun h => nomatch h)
  | .bool _, .num _ => .isFalse (fun h => nomatch h)
  | .bool _, .str _ => .isFalse (fun h => nomatch h)
  | .bool _, .arr _ => .isFalse (fun h => nomatch h)
  | .bool _, .obj _ => .isFalse (fun h => nomatch h)
  | .num _, .null => .isFalse (fun h => nomatch h)
  | .num _, .bool _ => .isFalse (fun h => nomatch h)
  | .num _, .str _ => .isFalse (fun h => nomatch h)
  | .num _, .arr _ => .isFalse (fun h => nomatch h)
  | .num _, .obj _ => .isFalse (fun h => nomatch h)
  | .str _, .null => .isFalse (fun h => nomatch h)
  | .str _, .bool _ => .isFalse (fun h => nomatch h)
  | .str _, .num _ => .isFalse (fun h => nomatch h)
  | .str _, .arr _ => .isFalse (fun h => nomatch h)
  | .str _, .obj _ => .isFalse (fun h => nomatch h)
  | .arr _, .null => .isFalse (fun h => nomatch h)
  | .arr _, .bool _ => .isFalse (fun h => nomatch h)
  | .arr _, .num _ => .isFalse (fun h => nomatch h)
  | .arr _, .str _ => .isFalse (fun h => nomatch h)
  | .arr _, .obj _ => .isFalse (fun h => nomatch h)
  | .obj _, .null => .isFalse (fun h => nomatch h)
  | .obj _, .bool _ => .isFalse (fun h => nomatch h)
  | .obj _, .num _ => .isFalse (fun h => nomatch h)
  | .obj _, .str _ => .isFalse (fun h => nomatch h)
  | .obj _, .arr _ => .isFalse (fun h => nomatch h)
def jsonListDecEq : (a b : List Json) → Decidable (a = b)
  | [], [] => .isTrue rfl
  | [], _ :: _ => .isFalse (fun h => nomatch h)
  | _ :: _, [] => .isFalse (fun h => nomatch h)
  | x :: xs, y :: ys =>
    match jsonDecEq x y, jsonListDecEq xs ys with
    | .isTrue h1, .isTrue h2 => .isTrue (by rw [h1, h2])
    | .isFalse h1, _ => .isFalse (by intro hh; injection hh; contradiction)
    | _, .isFalse h2 => .isFalse (by intro hh; injection hh; contradiction)
def jsonObjDecEq : (a b : List (String × Json)) → Decidable (a = b)
  | [], [] => .isTrue rfl
  | [], _ :: _ => .isFalse (fun h => nomatch h)
  | _ :: _, [] => .isFalse (fun h => nomatch h)
  | (k, v) :: xs, (k2, v2) :: ys =>
    match decEq k k2, jsonDecEq v v2, jsonObjDecEq xs ys with
    | .isTrue h0, .isTrue h1, .isTrue h2 => .isTrue (by rw [h0, h1, h2])
    | .isFalse h0, _, _ => .isFalse (by intro hh; injection hh with hp hr; injection hp; contradiction)
    | _, .isFalse h1, _ => .isFalse (by intro hh; injection hh with hp hr; injection hp; contradiction)
    | _, _, .isFalse h2 => .isFalse (by intro hh; injection hh; contradiction)
end

instance : DecidableEq Json := jsonDecEq

/-- Python truthiness of a value obtained from parsed JSON: `None`, `False`,
`0`, the empty string, the empty list and the empty dict are falsy,
everything else is truthy. -/
def truthy : Json → Bool
  | .null => false
  | .bool b => b
  | .num n => n != 0
  | .str s => s != ""
  | .arr xs => !xs.isEmpty
  | .obj fs => !fs.isEmpty

/-- Python `d.get(key)` on a dict: the value stored at `key`, or `None`
(here: `none`) when absent.  Dicts have unique keys, so taking the first
binding with `List.lookup` is exact. -/
def lookupKey (key : String) (d : List (String × Json)) : Option Json :=
  d.lookup key

/-- Truthiness of a `d.get(key)` result (`None` is falsy). -/
def truthyOpt (o : Option Json) : Bool :=
  o.elim false truthy

/-- Python `isinstance(v, dict)`. -/
def isObjB : Json → Bool
  | .obj _ => true
  | _ => false

/-- Python `isinstance(v, list)`. -/
def isArrB : Json → Bool
  | .arr _ => true
  | _ => false

/-- Body of the `k == "offerRating" and isinstance(v, dict)` branch of
`extract_offer_rating` (source lines 54-58): read `originalPrice` and
`finalPrice` from the dict `v` and record the pair when at least one of the
two is truthy. -/
def priceFacts : Json → List (Option Json × Option Json)
  | .obj vfs =>
    let orig := lookupKey "originalPrice" vfs
    let fin := lookupKey "finalPrice" vfs
    if truthyOpt orig || truthyOpt fin then [(orig, fin)] else []
  | _ => []

mutual
/-- Embedding of `extract_offer_rating(data, found_prices)` (source lines
51-63).  The Python function appends to the accumulator list
`found_prices`; the embedding returns the list of appended facts in
traversal order, so the Python call is `found_prices ++ extract_offer_rating
data`.  Note that when a key equals `"offerRating"` and its value is a dict
the function does not recurse into that value. -/
def extract_offer_rating : Json → List (Option Json × Option Json)
  | .obj fs => eorFields fs
  | .arr xs => eorItems xs
  | _ => []
def eorFields : List (String × Json) → List (Option Json × Option Json)
  | [] => []
  | (k, v) :: rest =>
    (if k = "offerRating" && isObjB v then priceFacts v else extract_offer_rating v)
      ++ eorFields rest
def eorItems : List Json → List (Option Json × Option Json)
  | [] => []
  | x :: xs => extract_offer_rating x ++ eorItems xs
end

/-- Python chained `or` used at source lines 72 and 76:
`upg.get("name") or upg.get("title") or "Unknown"` (first truthy operand,
else the final operand). -/
def nameOrTitleOrUnknown (d : List (String × Json)) : Json :=
  if truthyOpt (lookupKey "name" d) then (lookupKey "name" d).getD .null
  else if truthyOpt (lookupKey "title" d) then (lookupKey "title" d).getD .null
  else .str "Unknown"

/-- Python `str()` of a value obtained from parsed JSON, as used by f-string
interpolation and by `csv.writer` when it stringifies a non-`str` cell.
For strings `str` is the identity; `None`, `True`, `False` and integers
render as in Python.  For nested lists/dicts Python falls back to `repr`;
that case never carries price or name data in practice and is modelled
without `repr`'s quoting of inner strings. -/
def pyStr : Json → String
  | .null => "None"
  | .bool true => "True"
  | .bool false => "False"
  | .num n => toString n
  | .str s => s
  | .arr _ => "[...]"
  | .obj _ => "\x7b...\x7d"

/-- Body of the per-entry work in the `upgradeFrom`/`upgradableFrom` branch
of `extract_upgrade_from` (source lines 72-78) for one dict `upg`: the pair
of the `name`-or-`title`-or-`"Unknown"` value and the URL string
`f"https://assetstore.unity.com{url}" if url else ""`. -/
def upgEntry (d : List (String × Json)) : Json × String :=
  let url := lookupKey "url" d
  (nameOrTitleOrUnknown d,
   if truthyOpt url then "https://assetstore.unity.com" ++ pyStr (url.getD .null) else "")

/-- Facts produced by the matched branch of `extract_upgrade_from` for the
value `v` of an `upgradeFrom`/`upgradableFrom` key: if `v` is a list, one
entry per dict element (non-dict elements are skipped); if `v` is a dict,
one entry; otherwise nothing.  In no case does the function recurse into
`v`. -/
def upgFacts : Json → List (Json × String)
  | .arr xs =>
    xs.filterMap (fun u => match u with
      | .obj d => some (upgEntry d)
      | _ => none)
  | .obj d => [upgEntry d]
  | _ => []

mutual
/-- Embedding of `extract_upgrade_from(data, upgrades)` (source lines
65-83), returning the appended `(name, url)` facts in traversal order. -/
def extract_upgrade_from : Json → List (Json × String)
  | .obj fs => eufFields fs
  | .arr xs => eufItems xs
  | _ => []
def eufFields : List (String × Json) → List (Json × String)
  | [] => []
  | (k, v) :: rest =>
    (if k = "upgradeFrom" || k = "upgradableFrom" then upgFacts v
     else extract_upgrade_from v) ++ eufFields rest
def eufItems : List Json → List (Json × String)
  | [] => []
  | x :: xs => extract_upgrade_from x ++ eufItems xs
end

/-- Facts produced by the `k == "results" and isinstance(v, list)` branch of
`extract_asset_name` (source lines 88-91): the `result["name"]` value of
every dict element that has a `"name"` key (presence test, not
truthiness). -/
def resultNames : Json → List Json
  | .arr xs =>
    xs.filterMap (fun r => match r with
      | .obj d => lookupKey "name" d
      | _ => none)
  | _ => []

/-- Facts produced by the `k in ("product", "item") and isinstance(v, dict)`
branch of `extract_asset_name` (source lines 92-94). -/
def productItemName : Json → List Json
  | .obj d =>
    match lookupKey "name" d with
    | some v => [v]
    | none => []
  | _ => []

mutual
/-- Embedding of `extract_asset_name(data, names)` (source lines 85-99),
returning the appended name values in traversal order. -/
def extract_asset_name : Json → List Json
  | .obj fs => eanFields fs
  | .arr xs => eanItems xs
  | _ => []
def eanFields : List (String × Json) → List Json
  | [] => []
  | (k, v) :: rest =>
    (if k = "results" && isArrB v then resultNames v
     else if (k = "product" || k = "item") && isObjB v then productItemName v
     else extract_asset_name v) ++ eanFields rest
def eanItems : List Json → List Json
  | [] => []
  | x :: xs => extract_asset_name x ++ eanItems xs
end

/-- Escape of one character inside a JSON string literal as produced by
Python `json.dumps` (quote, backslash and the common control characters;
`ensure_ascii` escaping of non-ASCII characters is not modelled, which only
makes the serialized text longer in ways no claim depends on). -/
def escJsonChar (c : Char) : List Char :=
  if c = '"' then ['\\', '"']
  else if c = '\\' then ['\\', '\\']
  else if c = '\n' then ['\\', 'n']
  else if c = '\r' then ['\\', 'r']
  else if c = '\t' then ['\\', 't']
  else [c]

/-- JSON string literal for `json.dumps`. -/
def dumpsStr (s : String) : String :=
  "\"" ++ String.mk (s.data.flatMap escJsonChar) ++ "\""

mutual
/-- Embedding of Python `json.dumps(data)` with its default separators
`", "` and `": "` (source line 152 serializes the parsed payload to decide
whether any known key occurs in it). -/
def dumps : Json → String
  | .null => "null"
  | .bool true => "true"
  | .bool false => "false"
  | .num n => toString n
  | .str s => dumpsStr s
  | .arr xs => "[" ++ dumpsItems xs ++ "]"
  | .obj fs => "\x7b" ++ dumpsFields fs ++ "\x7d"
def dumpsItems : List Json → String
  | [] => ""
  | [x] => dumps x
  | x :: y :: rest => dumps x ++ ", " ++ dumpsItems (y :: rest)
def dumpsFields : List (String × Json) → String
  | [] => ""
  | [(k, v)] => dumpsStr k ++ ": " ++ dumps v
  | (k, v) :: f :: rest => dumpsStr k ++ ": " ++ dumps v ++ ", " ++ dumpsFields (f :: rest)
end

/-- Character-list substring test: does `needle` occur contiguously inside
`hay`?  This embeds the Python `in` operator on strings. -/
def hasInfixB (needle : List Char) : List Char → Bool
  | [] => needle.isEmpty
  | c :: cs => (needle.isPrefixOf (c :: cs)) || hasInfixB needle cs

/-- Python `needle in s` for strings. -/
def pyInStr (needle s : String) : Bool :=
  hasInfixB needle.data s.data

/-- The three per-asset accumulator lists of `process_asset` (source line
144): `found_prices`, `upgrade_from`, `asset_names`. -/
structure ExtractState where
  found_prices : List (Option Json × Option Json)
  upgrade_from : List (Json × String)
  asset_names : List Json

/-- The keys whose presence in the serialized response text triggers
extraction (source line 153).  Note `"item"` is not in this list even
though `extract_asset_name` matches it. -/
def triggerKeys : List String :=
  ["offerRating", "upgradeFrom", "upgradableFrom", "results", "product"]

/-- Embedding of the `handle_response` closure (source lines 147-158).  The
two awaited effects inside the `try` block, `response.all_headers()` and
`response.json()`, are the operations that can raise; they enter the
embedding as `Except` values (`.error` when the Python call raises).  The
`except Exception: pass` of the source corresponds to every `.error` branch
returning the state unchanged; the JSON-walking extractors themselves are
total, so no partial mutation of the accumulators is possible. -/
def handle_response (headers : Except Unit (Option String))
    (body : Except Unit Json) (st : ExtractState) : ExtractState :=
  match headers with
  | .error _ => st
  | .ok ct =>
    if pyInStr "application/json" (ct.getD "") then
      match body with
      | .error _ => st
      | .ok data =>
        let text := dumps data
        if triggerKeys.any (fun k => pyInStr k text) then
          { found_prices := st.found_prices ++ extract_offer_rating data
            upgrade_from := st.upgrade_from ++ extract_upgrade_from data
            asset_names := st.asset_names ++ extract_asset_name data }
        else st
    else st

/-- Python whitespace as used by `str.strip()` with no argument: space,
tab, newline, carriage return, vertical tab, form feed. -/
def isPyWS (c : Char) : Bool :=
  c = ' ' || c = '\t' || c = '\n' || c = '\r' || c = Char.ofNat 11 || c = Char.ofNat 12

/-- Python `s.strip()` on a character list: drop whitespace from both
ends. -/
def pyStripChars (l : List Char) : List Char :=
  ((l.dropWhile isPyWS).reverse.dropWhile isPyWS).reverse

/-- Python `s.strip()` on strings. -/
def pyStripS (s : String) : String :=
  String.mk (pyStripChars s.data)

/-- Split a character list at every occurrence of the character `sep`,
like Python `s.split(sep)`: the result is the (always nonempty) list of
separated pieces, with empty pieces where separators are adjacent or at the
ends. -/
def splitCh (sep : Char) : List Char → List (List Char)
  | [] => [[]]
  | c :: cs =>
    let r := splitCh sep cs
    if c = sep then [] :: r else (c :: r.headD []) :: r.tail

/-- Rejoin pieces with the separator character: left inverse of
`splitCh`. -/
def joinCh (sep : Char) : List (List Char) → List Char
  | [] => []
  | [x] => x
  | x :: y :: rest => x ++ sep :: joinCh sep (y :: rest)

/-- Python `f.readlines()` on file contents `s`: the lines of `s`, each
including its trailing newline, with an unterminated final line kept
without one and no empty final line when `s` ends in a newline. -/
def pyReadlines (s : List Char) : List (List Char) :=
  let ps := splitCh '\n' s
  ps.dropLast.map (fun p => p ++ ['\n']) ++
    (if ps.getLastD [] = [] then [] else [ps.getLastD []])

/-- Python `link.split("/")[-1]`: the piece after the final slash (source
line 240 uses it as the fallback asset name). -/
def pyLastSegment (link : String) : String :=
  String.mk ((splitCh '/' link.data).getLastD [])

/-- Embedding of `save_txt_line(text)` (source lines 28-30): the contents
of `unity_upgrade_discounts.txt` after appending `text` plus a newline.
Files are modelled by their contents, `none` when the file does not exist;
opening in mode `"a"` creates a missing file, hence the result always
exists. -/
def save_txt_line (file : Option String) (text : String) : Option String :=
  some (file.getD "" ++ text ++ "\n")

/-- CSV quoting as done by `csv.writer` with default dialect: a field is
quoted iff it contains the delimiter, the quote character or a line break,
and quote characters are doubled. -/
def csvField (s : String) : String :=
  if s.data.any (fun c => c = ',' || c = '"' || c = '\n' || c = '\r') then
    "\"" ++ String.mk (s.data.flatMap (fun c => if c = '"' then ['"', '"'] else [c])) ++ "\""
  else s

/-- One CSV record as serialized by `csv.writer.writerow`: the cells are
stringified with `str()`, quoted as needed, comma-joined. -/
def csvLine (row : List Json) : String :=
  String.intercalate "," (row.map (fun cell => csvField (pyStr cell)))

/-- Embedding of `save_csv_row(row)` (source lines 32-35): the contents of
`unity_upgrade_discounts.csv` after appending one CSV record (the default
`csv.writer` line terminator is a CRLF). -/
def save_csv_row (file : Option String) (row : List Json) : Option String :=
  some (file.getD "" ++ csvLine row ++ "\r\n")

/-- Embedding of `mark_processed(link)` (source lines 37-39): the contents
of `processed_assets.txt` after appending `link` plus a newline. -/
def mark_processed (file : Option String) (link : String) : Option String :=
  some (file.getD "" ++ link ++ "\n")

/-- Embedding of `load_processed()` (source lines 41-45): the empty set
when the progress file does not exist, otherwise the set of
whitespace-stripped lines of the file. -/
def load_processed (file : Option String) : Finset String :=
  match file with
  | none => ∅
  | some s => ((pyReadlines s.data).map (fun l => String.mk (pyStripChars l))).toFinset

/-- Embedding of `wrap_hyperlink(url, label)` (source lines 47-49): the
spreadsheet formula string; a falsy label is replaced by the URL, and a
non-string label is interpolated with `str()` by the f-string. -/
def wrap_hyperlink (url : String) (label : Json) : String :=
  let lab := if truthy label then pyStr label else url
  "=HYPERLINK(\"" ++ url ++ "\",\"" ++ lab ++ "\")"

/-- Line 240 of the source: `asset_names[0] if asset_names else
link.split("/")[-1]`. -/
def assetNameVal (asset_names : List Json) (link : String) : Json :=
  match asset_names with
  | n :: _ => n
  | [] => .str (pyLastSegment link)

/-- Line 241 of the source: `list(set(found_prices)) if found_prices else
[]`.  The Python `set` is modelled as the deduplicated list (Python sets
are unordered, so the enumeration order of `list(set(..))` is arbitrary;
`List.dedup` fixes one enumeration containing exactly the distinct
elements). -/
def uniquePrices (found_prices : List (Option Json × Option Json)) :
    List (Option Json × Option Json) :=
  if found_prices.isEmpty then [] else found_prices.dedup

/-- Python `orig or "N/A"` (source lines 250-256): the value itself when
truthy, else the string `"N/A"`. -/
def orNA (o : Option Json) : Json :=
  if truthyOpt o then o.getD .null else .str "N/A"

/-- The 8-column header written once when `unity_upgrade_discounts.csv`
does not yet exist (source lines 181-186). -/
def csvHeaderRow : List Json :=
  [.str "Asset Name", .str "Original Price", .str "Final Price",
   .str "Upgrade From", .str "Upgrade URL", .str "Asset URL",
   .str "Publisher Name", .str "Publisher Page"]

/-- The CSV rows appended for one asset by the per-asset block of `main`
(source lines 239-260), given the collected `found_prices`, `upgrade_from`
and `asset_names` of that asset: one row per deduplicated price pair and
upgrade entry when both exist, one row per deduplicated price pair when
there are no upgrade entries, and a single facts-free row when no price
pair was collected. -/
def rowsForAsset (link : String) (found_prices : List (Option Json × Option Json))
    (upgrade_from : List (Json × String)) (asset_names : List Json)
    (publisher_name publisher_url : String) : List (List Json) :=
  let asset_name := assetNameVal asset_names link
  let unique_prices := uniquePrices found_prices
  let asset_url_hl := wrap_hyperlink link asset_name
  let pub_hl := wrap_hyperlink publisher_url (.str publisher_name)
  if !unique_prices.isEmpty then
    unique_prices.flatMap (fun pr =>
      if !upgrade_from.isEmpty then
        upgrade_from.map (fun upg =>
          [asset_name, orNA pr.1, orNA pr.2, upg.1,
           .str (if upg.2 != "" then wrap_hyperlink upg.2 upg.1 else ""),
           .str asset_url_hl, .str publisher_name, .str pub_hl])
      else
        [[asset_name, orNA pr.1, orNA pr.2, .str "", .str "",
          .str asset_url_hl, .str publisher_name, .str pub_hl]])
  else
    [[asset_name, .str "", .str "", .str "", .str "",
      .str asset_url_hl, .str publisher_name, .str pub_hl]]

/-- Source line 11. -/
def DEFAULT_PUBLISHER : String × String :=
  ("ARTnGAME", "https://assetstore.unity.com/publishers/6503?pageSize=96")

/-- Python `line.strip().split(",", 1)`: split at the first comma only.
Callers guard with `"," in line`, so the single-piece case (which would
make the Python tuple unpacking raise) is unreachable; it is mapped to an
empty URL. -/
def pySplitFirstComma (s : String) : String × String :=
  match splitCh ',' s.data with
  | [] => (s, "")
  | p :: rest => (String.mk p, String.mk (joinCh ',' rest))

/-- Embedding of the publisher-list loading block of `main` (source lines
170-179): `none` models a missing `publishers.txt`, `some lines` its lines
(as returned by `readlines`, but only stripped content matters here).
Each line that is non-blank after stripping and contains a comma is split
at its first comma into a name/URL pair, both stripped; if no line
qualifies (or the file is absent) the single default publisher is used. -/
def parsePublishers (file : Option (List String)) : List (String × String) :=
  let pubs :=
    match file with
    | none => []
    | some lines =>
      lines.filterMap (fun line =>
        if pyStripS line != "" && pyInStr "," line then
          let nu := pySplitFirstComma (pyStripS line)
          some (pyStripS nu.1, pyStripS nu.2)
        else none)
  if pubs.isEmpty then [DEFAULT_PUBLISHER] else pubs

/-- Source line 19. -/
def PAGE_SIZE : Nat := 96

/-- Source line 17. -/
def BATCH_SIZE : Nat := 10

/-- The set of product links collected from one listing page (source lines
117-123): the `href` attributes matched by the selector enter as a list of
strings, are filtered by the `"/packages/" in href` test (a `None` or empty
attribute fails it), prefixed with the store origin and collected into a
set (modelled as a deduplicated list whose length is the Python
`len(page_links)`). -/
def pageLinks (hrefs : List String) : List String :=
  ((hrefs.filter (fun h => pyInStr "/packages/" h)).map
    (fun h => "https://assetstore.unity.com" ++ h)).dedup

/-- The `while True` pagination loop of `collect_all_assets_by_url`
(source lines 107-140).  The environment `pages` gives the hrefs found on
each numbered listing page.  The loop as written need not terminate (every
page could be full), so the embedding takes fuel and returns `none` when
the loop is still running after `fuel` iterations; a `some (links, n)`
result means the loop stopped after fetching pages `page_num .. n`,
returning the accumulated link set.  Each iteration stops before
accumulating when the page has zero links, stops after accumulating when
it has fewer than `page_size` links, and otherwise continues with the next
page number. -/
def collectPages (pages : Nat → List String) (page_size : Nat) :
    Nat → Nat → List String → Option (List String × Nat)
  | 0, _, _ => none
  | fuel + 1, page_num, all_links =>
    let pl := pageLinks (pages page_num)
    let num := pl.length
    if num = 0 then some (all_links, page_num)
    else
      let all2 := (all_links ++ pl).dedup
      if num < page_size then some (all2, page_num)
      else collectPages pages page_size fuel (page_num + 1) all2

/-- `collect_all_assets_by_url(page, base_url)` as called by `main`
(source line 224): run the pagination loop from page 1 with the configured
page size and sort the collected set (`return sorted(all_links)`). -/
def collect_all_assets_by_url (pages : Nat → List String) (fuel : Nat) :
    Option (List String × Nat) :=
  (collectPages pages PAGE_SIZE fuel 1 []).map
    (fun r => (r.1.mergeSort (fun a b => decide (a ≤ b)), r.2))

/-- Python `itertools`-based `batched(iterable, n)` (source lines 101-104):
successive chunks of `n` elements (no chunks for `n = 0`, where `islice`
yields an empty batch and the loop stops at once). -/
def batched {α : Type} (n : Nat) : List α → List (List α)
  | [] => []
  | x :: xs =>
    if _h : n = 0 then []
    else (x :: xs).take n :: batched n ((x :: xs).drop n)
termination_by l => l.length
decreasing_by simp [List.length_drop]; omega

/-- The batch loop of `main` for one publisher (source lines 227-264), as
a trace of emissions.  `pm` is the in-memory `processed` set loaded once at
run start (source line 188, never updated during the run); `file` is the
list of links appended to `processed_assets.txt` so far.  Each batch is
filtered against `pm` when it is formed; every surviving link has its rows
emitted and is marked processed.  The trace pairs every emitted link with
the contents of the progress file at the moment its batch was formed; the
final progress-file contents are returned alongside.  (A batch left empty
by the filter is skipped by the source, which emits nothing either.) -/
def runBatchesGo (pm : List String) :
    List (List String) → List String → List (List String × String) × List String
  | [], file => ([], file)
  | b :: bs, file =>
    let filtered := b.filter (fun l => !pm.contains l)
    let step := runBatchesGo pm bs (file ++ filtered)
    (filtered.map (fun l => (file, l)) ++ step.1, step.2)

/-- One publisher iteration of the loop at source line 219: batch the
publisher asset list and run the batch loop. -/
def runPublisher (pm : List String) (assets : List String) (file : List String) :
    List (List String × String) × List String :=
  runBatchesGo pm (batched BATCH_SIZE assets) file

/-- The publisher loop of `main` (source lines 219-267): each publisher in
turn contributes its batches, the progress file accumulating across
publishers while the in-memory `processed` set `pm` stays fixed. -/
def runAllGo (pm : List String) :
    List (List String) → List String → List (List String × String) × List String
  | [], file => ([], file)
  | assets :: rest, file =>
    let r1 := runPublisher pm assets file
    let r2 := runAllGo pm rest r1.2
    (r1.1 ++ r2.1, r2.2)

mutual
/-- Modelled from the spec side of claim C2: the number of occurrences of
`key` as a dict key anywhere in the nested structure, at any depth ("the
extractor collects a fact for every occurrence of the known keys ...
regardless of the depth at which the key occurs").  Compared against the
extractors translated from the source. -/
def countKeyOcc (key : String) : Json → Nat
  | .obj fs => ckoFields key fs
  | .arr xs => ckoItems key xs
  | _ => 0
def ckoFields (key : String) : List (String × Json) → Nat
  | [] => 0
  | (k, v) :: rest =>
    (if k = key then 1 else 0) + countKeyOcc key v + ckoFields key rest
def ckoItems (key : String) : List Json → Nat
  | [] => 0
  | x :: xs => countKeyOcc key x + ckoItems key xs
end

/-- A nesting context: wrap a value under a chain of single-field objects
(`some key`) and singleton arrays (`none`), innermost wrapper last.  Used
to state depth-independence of the extractors. -/
def wrapCtx : List (Option String) → Json → Json
  | [], j => j
  | none :: c, j => .arr [wrapCtx c j]
  | some k :: c, j => .obj [(k, wrapCtx c j)]

/-- The context uses none of the given matched keys. -/
def ctxAvoids (keys : List String) (ctx : List (Option String)) : Bool :=
  ctx.all (fun o => match o with
    | none => true
    | some k => !keys.contains k)

/-- The key matched by `extract_offer_rating`. -/
def offerKeys : List String := ["offerRating"]

/-- The keys matched by `extract_upgrade_from`. -/
def upgKeys : List String := ["upgradeFrom", "upgradableFrom"]

/-- The keys matched by `extract_asset_name`. -/
def nameKeys : List String := ["results", "product", "item"]

/-- A payload whose single `offerRating` occurrence carries a truthy
`originalPrice`. -/
def c2cexInner : Json := .obj [("offerRating", .obj [("originalPrice", .str "5")])]

/-- The same payload nested inside the value of another `offerRating`
key. -/
def c2cexOuter : Json := .obj [("offerRating", .obj [("x", c2cexInner)])]

/-- One write performed by the three persistence helpers (all three files
are append-only; one op list per file is folded over that file's
contents). -/
inductive FileOp where
  | txt : String → FileOp
  | csvR : List Json → FileOp
  | mark : String → FileOp

/-- Apply one persistence call to the file contents it targets. -/
def applyFileOp (f : Option String) : FileOp → Option String
  | .txt t => save_txt_line f t
  | .csvR r => save_csv_row f r
  | .mark l => mark_processed f l

/-- Reachable progress-file states: the file is absent, empty, or ends
with a newline.  `mark_processed` is the only writer of
`processed_assets.txt` and always appends a trailing newline, so every
state the program can produce satisfies this. -/
def goodFile : Option String → Prop
  | none => True
  | some s => s.data = [] ∨ s.data.getLast? = some '\n'

lemma splitCh_ne_nil (sep : Char) (l : List Char) : splitCh sep l ≠ [] := by
  cases l with
  | nil => simp [splitCh]
  | cons c cs =>
    simp only [splitCh]
    split <;> simp

lemma splitCh_eq_single_empty (sep : Char) (l : List Char)
    (h : splitCh sep l = [[]]) : l = [] := by
  cases l with
  | nil => rfl
  | cons c cs =>
    exfalso
    simp only [splitCh] at h
    split at h
    · have hnil : splitCh sep cs = [] := by simpa using h
      exact splitCh_ne_nil sep cs hnil
    · simp at h

lemma splitCh_append_no_sep (sep : Char) (u : List Char) (hu : sep ∉ u) :
    ∀ t p ps, splitCh sep t = p :: ps →
      splitCh sep (u ++ t) = (u ++ p) :: ps := by
  induction u with
  | nil => intro t p ps h; simpa using h
  | cons c u2 ih =>
    intro t p ps h
    have hc : c ≠ sep := fun hcc => hu (hcc ▸ List.mem_cons_self c u2)
    have hrec := ih (fun hm => hu (List.mem_cons_of_mem c hm)) t p ps h
    simp only [List.cons_append, splitCh, List.append_eq]
    rw [hrec]
    simp [hc]


lemma splitCh_nil (sep : Char) : splitCh sep [] = [[]] := rfl

lemma splitCh_cons (sep c : Char) (cs : List Char) :
    splitCh sep (c :: cs) =
      if c = sep then [] :: splitCh sep cs
      else (c :: (splitCh sep cs).headD []) :: (splitCh sep cs).tail := rfl

lemma splitCh_cons_self (sep : Char) (cs : List Char) :
    splitCh sep (sep :: cs) = [] :: splitCh sep cs := by
  rw [splitCh_cons, if_pos rfl]

lemma splitCh_cons_ne (sep c : Char) (cs : List Char) (h : c ≠ sep) :
    splitCh sep (c :: cs) = (c :: (splitCh sep cs).headD []) :: (splitCh sep cs).tail := by
  rw [splitCh_cons, if_neg h]

lemma getLast?_cons_of_ne (a : Char) (l : List Char) (h : l ≠ []) :
    (a :: l).getLast? = l.getLast? := by
  cases l with
  | nil => exact absurd rfl h
  | cons b t => rw [List.getLast?_cons_cons]

lemma getLastD_irrel {α : Type} (l : List α) (h : l ≠ []) (d1 d2 : α) :
    l.getLastD d1 = l.getLastD d2 := by
  cases l with
  | nil => exact absurd rfl h
  | cons a t => rw [List.getLastD_cons, List.getLastD_cons]

lemma splitCh_no_sep (sep : Char) (l : List Char) (h : sep ∉ l) :
    splitCh sep l = [l] := by
  have hr := splitCh_append_no_sep sep l h [] [] [] rfl
  simpa using hr

lemma splitCh_newline_append :
    ∀ c : List Char, (c = [] ∨ c.getLast? = some '\n') →
      (splitCh '\n' c).getLast? = some [] ∧
      ∀ t, splitCh '\n' (c ++ t) = (splitCh '\n' c).dropLast ++ splitCh '\n' t := by
  intro c
  induction c with
  | nil =>
    intro _
    exact ⟨rfl, fun t => by simp [splitCh_nil]⟩
  | cons ch c2 ih =>
    intro hgood
    by_cases hc2 : c2 = []
    · subst hc2
      have hch : ch = '\n' := by
        rcases hgood with h | h
        · exact absurd h (by simp)
        · simpa using h
      subst hch
      refine ⟨rfl, fun t => ?_⟩
      rw [List.cons_append, List.nil_append, splitCh_cons_self]
      simp [splitCh_nil, splitCh_cons_self]
    · have hg2 : c2.getLast? = some '\n' := by
        rcases hgood with h | h
        · exact absurd h (by simp)
        · rwa [getLast?_cons_of_ne ch c2 hc2] at h
      obtain ⟨ih1, ih2⟩ := ih (Or.inr hg2)
      obtain ⟨p, ps, hps⟩ := List.exists_cons_of_ne_nil (splitCh_ne_nil '\n' c2)
      by_cases hch : ch = '\n'
      · subst hch
        constructor
        · rw [splitCh_cons_self, hps, List.getLast?_cons_cons]
          rw [hps] at ih1
          exact ih1
        · intro t
          rw [List.cons_append, splitCh_cons_self, splitCh_cons_self, ih2 t, hps,
            List.dropLast_cons₂]
          simp
      · have hpsne : ps ≠ [] := by
          intro hnil
          rw [hps, hnil] at ih1
          have hp : p = [] := by simpa using ih1
          exact hc2 (splitCh_eq_single_empty '\n' c2 (by rw [hps, hnil, hp]))
        obtain ⟨q, qs, hqs⟩ := List.exists_cons_of_ne_nil hpsne
        subst hqs
        constructor
        · rw [splitCh_cons_ne _ _ _ hch, hps]
          simp only [List.headD_cons, List.tail_cons]
          rw [List.getLast?_cons_cons]
          rw [hps, List.getLast?_cons_cons] at ih1
          exact ih1
        · intro t
          have h2 := ih2 t
          rw [hps, List.dropLast_cons₂] at h2
          rw [List.cons_append, splitCh_cons_ne _ _ _ hch, h2,
            splitCh_cons_ne _ _ _ hch, hps]
          simp [List.cons_append, List.dropLast_cons₂]

lemma splitCh_concat (sep x : Char) (xs : List Char) :
    splitCh sep (xs ++ [x]) =
      if x = sep then splitCh sep xs ++ [[]]
      else (splitCh sep xs).dropLast ++ [(splitCh sep xs).getLastD [] ++ [x]] := by
  induction xs with
  | nil =>
    by_cases hx : x = sep
    · subst hx
      rw [if_pos rfl, List.nil_append, splitCh_cons_self]
      rfl
    · rw [if_neg hx, List.nil_append, splitCh_cons_ne _ _ _ hx]
      simp [splitCh_nil]
  | cons c cs ih =>
    obtain ⟨p, ps, hps⟩ := List.exists_cons_of_ne_nil (splitCh_ne_nil sep cs)
    rw [hps] at ih
    by_cases hc : c = sep
    · subst hc
      by_cases hx : x = c
      · rw [if_pos hx] at ih ⊢
        rw [List.cons_append, splitCh_cons_self, ih, splitCh_cons_self, hps]
        simp
      · rw [if_neg hx] at ih ⊢
        rw [List.cons_append, splitCh_cons_self, ih, splitCh_cons_self, hps,
          List.dropLast_cons₂, List.getLastD_cons]
        simp
        rw [← List.getLastD_eq_getLast?, ← List.getLastD_eq_getLast?, List.getLastD_cons]
    · by_cases hx : x = sep
      · rw [if_pos hx] at ih ⊢
        rw [List.cons_append, splitCh_cons_ne _ _ _ hc, ih, splitCh_cons_ne _ _ _ hc, hps]
        simp [List.cons_append]
      · rw [if_neg hx] at ih ⊢
        cases ps with
        | nil =>
          rw [List.cons_append, splitCh_cons_ne _ _ _ hc, ih, splitCh_cons_ne _ _ _ hc, hps]
          simp
        | cons q qs =>
          rw [List.cons_append, splitCh_cons_ne _ _ _ hc, ih, splitCh_cons_ne _ _ _ hc, hps,
            List.dropLast_cons₂, List.getLastD_cons]
          simp only [List.headD_cons, List.tail_cons, List.dropLast_cons₂,
            List.getLastD_cons, List.cons_append]

lemma splitCh_getLast (sep : Char) (l : List Char) :
    (splitCh sep l).getLastD [] = (l.reverse.takeWhile (fun c => c != sep)).reverse := by
  induction l using List.reverseRecOn with
  | nil => rfl
  | append_singleton xs x ih =>
    rw [splitCh_concat]
    by_cases hx : x = sep
    · rw [if_pos hx, List.reverse_append]
      subst hx
      simp
    · rw [if_neg hx, List.reverse_append]
      simp only [List.reverse_singleton, List.singleton_append, List.takeWhile_cons]
      have hxb : (x != sep) = true := by simpa using hx
      rw [hxb]
      simp only [if_true]
      rw [List.reverse_cons, ← ih]
      rw [List.getLastD_eq_getLast?, List.getLast?_concat]
      rfl

lemma joinCh_single (sep : Char) (x : List Char) : joinCh sep [x] = x := rfl

lemma joinCh_cons₂ (sep : Char) (x y : List Char) (rest : List (List Char)) :
    joinCh sep (x :: y :: rest) = x ++ sep :: joinCh sep (y :: rest) := rfl

lemma joinCh_splitCh (sep : Char) (l : List Char) : joinCh sep (splitCh sep l) = l := by
  induction l with
  | nil => rfl
  | cons c cs ih =>
    obtain ⟨p, ps, hps⟩ := List.exists_cons_of_ne_nil (splitCh_ne_nil sep cs)
    rw [hps] at ih
    by_cases hc : c = sep
    · subst hc
      rw [splitCh_cons_self, hps, joinCh_cons₂, ih]
      simp
    · rw [splitCh_cons_ne _ _ _ hc, hps]
      simp only [List.headD_cons, List.tail_cons]
      cases ps with
      | nil =>
        rw [joinCh_single]
        rw [joinCh_single] at ih
        rw [ih]
      | cons q qs =>
        rw [joinCh_cons₂]
        rw [joinCh_cons₂] at ih
        rw [← ih]
        simp [List.cons_append]

lemma splitCh_head_no_sep (sep : Char) (l : List Char) :
    sep ∉ (splitCh sep l).headD [] := by
  induction l with
  | nil => simp [splitCh_nil]
  | cons c cs ih =>
    by_cases hc : c = sep
    · subst hc
      rw [splitCh_cons_self]
      simp
    · rw [splitCh_cons_ne _ _ _ hc]
      simp only [List.headD_cons]
      intro hmem
      rcases List.mem_cons.mp hmem with h | h
      · exact hc h.symm
      · exact ih h

/-- C6: any exception raised inside the response handler (the `.error`
results of the awaited header fetch and JSON parse, covering every raising
operation of the `try` block) is caught and discarded: the per-asset
`found_prices`, `upgrade_from` and `asset_names` accumulators are returned
unchanged, exactly as if the response had yielded nothing, and the handler
never aborts the asset. -/
theorem c6_handler_exceptions_discarded :
    ∀ (headers : Except Unit (Option String)) (body : Except Unit Json)
      (st : ExtractState),
      headers = .error () ∨ body = .error () →
      handle_response headers body st = st := by
  intro headers body st h
  rcases h with h | h
  · subst h
    rfl
  · subst h
    cases headers with
    | error e => rfl
    | ok ct =>
      cases hc : pyInStr "application/json" (ct.getD "") <;>
        simp [handle_response, hc]

/-- C6 witness: the theorem applied to a concrete failing response. -/
theorem c6_handler_exceptions_discarded_witness :
    handle_response (.error ()) (.error ()) ⟨[], [], []⟩ = ⟨[], [], []⟩ :=
  c6_handler_exceptions_discarded _ _ _ (Or.inl rfl)

/-- C7: the three persistence helpers only append: after any single call,
and after any sequence of calls, the previous contents of the written file
are a prefix of the new contents (so no previously written row or marker
is ever mutated or deleted). -/
theorem c7_persistence_append_only :
    ∀ f : Option String,
      (∀ t, ∃ suf, (save_txt_line f t).getD "" = f.getD "" ++ suf) ∧
      (∀ r, ∃ suf, (save_csv_row f r).getD "" = f.getD "" ++ suf) ∧
      (∀ l, ∃ suf, (mark_processed f l).getD "" = f.getD "" ++ suf) ∧
      (∀ ops : List FileOp, ∃ suf, (ops.foldl applyFileOp f).getD "" = f.getD "" ++ suf) := by
  have hstep : ∀ (f : Option String) (op : FileOp),
      ∃ suf, (applyFileOp f op).getD "" = f.getD "" ++ suf := by
    intro f op
    cases op with
    | txt t =>
      exact ⟨t ++ "\n", by simp [applyFileOp, save_txt_line, String.append_assoc]⟩
    | csvR r =>
      exact ⟨csvLine r ++ "\r\n", by simp [applyFileOp, save_csv_row, String.append_assoc]⟩
    | mark l =>
      exact ⟨l ++ "\n", by simp [applyFileOp, mark_processed, String.append_assoc]⟩
  have hfold : ∀ (ops : List FileOp) (f : Option String),
      ∃ suf, (ops.foldl applyFileOp f).getD "" = f.getD "" ++ suf := by
    intro ops
    induction ops with
    | nil =>
      intro f
      exact ⟨"", by simp⟩
    | cons op rest ih =>
      intro f
      obtain ⟨s1, h1⟩ := hstep f op
      obtain ⟨s2, h2⟩ := ih (applyFileOp f op)
      refine ⟨s1 ++ s2, ?_⟩
      rw [List.foldl_cons, h2, h1, String.append_assoc]
  intro f
  exact ⟨fun t => hstep f (.txt t), fun r => hstep f (.csvR r),
    fun l => hstep f (.mark l), fun ops => hfold ops f⟩

/-- C5: every row ever appended to the CSV output has exactly 8 columns:
the header row (whose fixed order is the `csvHeaderRow` definition) and
every data row of every branch of the per-asset block (prices with
upgrades, prices only, no facts). -/
theorem c5_csv_rows_eight_columns :
    ∀ (link : String) (fp : List (Option Json × Option Json))
      (upg : List (Json × String)) (names : List Json) (pn pu : String),
      ∀ r ∈ csvHeaderRow :: rowsForAsset link fp upg names pn pu,
        r.length = 8 := by
  intro link fp upg names pn pu r hr
  rcases List.mem_cons.mp hr with rfl | hr
  · rfl
  · simp only [rowsForAsset] at hr
    split at hr
    · rcases List.mem_flatMap.mp hr with ⟨pr, _hpr, hin⟩
      split at hin
      · rcases List.mem_map.mp hin with ⟨u, _hu, rfl⟩
        rfl
      · rcases List.mem_singleton.mp hin with rfl
        rfl
    · rcases List.mem_singleton.mp hr with rfl
      rfl

/-- C5 witness: the theorem applied to the header row of a concrete
call. -/
theorem c5_csv_rows_eight_columns_witness : csvHeaderRow.length = 8 :=
  c5_csv_rows_eight_columns "x" [] [] [] "p" "u" csvHeaderRow
    (List.mem_cons_self _ _)

/-- C10: for an asset whose visits yielded no extracted name, the rows use
the substring of its URL after the final slash (the reversed longest
slash-free suffix) as the asset name; when at least one name was
collected, the first collected name is used; and the first column of every
row written for the asset is exactly that name. -/
theorem c10_asset_name_fallback :
    ∀ (link : String) (fp : List (Option Json × Option Json))
      (upg : List (Json × String)) (names : List Json) (pn pu : String),
      (names = [] → assetNameVal names link =
        .str (String.mk ((link.data.reverse.takeWhile (fun c => c != '/')).reverse))) ∧
      (∀ n rest, names = n :: rest → assetNameVal names link = n) ∧
      (∀ r ∈ rowsForAsset link fp upg names pn pu,
        r.headD .null = assetNameVal names link) := by
  intro link fp upg names pn pu
  refine ⟨?_, ?_, ?_⟩
  · intro h
    subst h
    simp only [assetNameVal, pyLastSegment, splitCh_getLast]
  · intro n rest h
    subst h
    rfl
  · intro r hr
    simp only [rowsForAsset] at hr
    split at hr
    · rcases List.mem_flatMap.mp hr with ⟨pr, _hpr, hin⟩
      split at hin
      · rcases List.mem_map.mp hin with ⟨u, _hu, rfl⟩
        rfl
      · rcases List.mem_singleton.mp hin with rfl
        rfl
    · rcases List.mem_singleton.mp hr with rfl
      rfl

/-- C10 witness: concrete fallback evaluation (no name collected, URL
`"a/b"`, name `"b"`). -/
theorem c10_asset_name_fallback_witness :
    assetNameVal [] "a/b" =
      .str (String.mk (((("a/b" : String)).data.reverse.takeWhile
        (fun c => c != '/')).reverse)) ∧
    assetNameVal [] "a/b" = .str "b" :=
  ⟨(c10_asset_name_fallback "a/b" [] [] [] "p" "u").1 rfl, by decide⟩

/-- The rows written for a concrete asset with one collected price pair
and two upgrade entries. -/
def c4cexRows : List (List Json) :=
  rowsForAsset "x/a" [(some (.str "10"), some (.str "5"))]
    [(.str "A", "u1"), (.str "B", "u2")] [.str "N"] "P" "U"

/-- C4 counterexample: with a single (deduplicated) price pair and two
upgrade entries, two distinct rows are written for the same asset and both
carry the same (original price, final price) pair in columns 2 and 3 — so
"no two rows written for the same asset carry the same price pair" is
false as stated. -/
theorem c4_counterexample :
    c4cexRows.length = 2 ∧
    ((c4cexRows.headD []).drop 1).take 2 = ((c4cexRows.getLastD []).drop 1).take 2 ∧
    c4cexRows.headD [] ≠ c4cexRows.getLastD [] := by
  refine ⟨?_, ?_, ?_⟩ <;> decide

lemma flatMap_const_length {α β : Type} (l : List α) (f : α → List β) (k : Nat)
    (h : ∀ a ∈ l, (f a).length = k) : (l.flatMap f).length = l.length * k := by
  induction l with
  | nil => simp
  | cons a t ih =>
    rw [List.flatMap_cons, List.length_append, h a (List.mem_cons_self a t),
      ih (fun b hb => h b (List.mem_cons_of_mem a hb)), List.length_cons]
    ring


/-- C4 amended: the collected price-pair list is deduplicated with set
semantics before any row is written (`uniquePrices` has no duplicates),
and each deduplicated pair then produces exactly one row per upgrade entry
(exactly one row when there are no upgrade entries; a single facts-free
row when there are no prices at all) — so rows repeating a price pair
arise only from multiple upgrade entries, never from duplicate collected
pairs. -/
theorem c4_price_pairs_deduplicated :
    ∀ (link : String) (fp : List (Option Json × Option Json))
      (upg : List (Json × String)) (names : List Json) (pn pu : String),
      (uniquePrices fp).Nodup ∧
      (rowsForAsset link fp upg names pn pu).length =
        if fp.isEmpty then 1
        else (uniquePrices fp).length * (if upg.isEmpty then 1 else upg.length) := by
  intro link fp upg names pn pu
  constructor
  · unfold uniquePrices
    split
    · exact List.nodup_nil
    · exact List.nodup_dedup fp
  · by_cases hfp : fp.isEmpty = true
    · have hup : uniquePrices fp = [] := by simp [uniquePrices, hfp]
      simp [rowsForAsset, hup, hfp]
    · have hfpf : fp.isEmpty = false := Bool.eq_false_iff.mpr hfp
      have hne : fp ≠ [] := by
        intro h
        subst h
        simp at hfpf
      have hup : (uniquePrices fp).isEmpty = false := by
        simp [uniquePrices, hfpf, List.isEmpty_iff, List.dedup_eq_nil, hne]
      rw [if_neg (by simp [hfpf])]
      simp only [rowsForAsset, hup, Bool.not_false, if_true]
      by_cases hupg : upg.isEmpty = true
      · have hu : upg = [] := by simpa [List.isEmpty_iff] using hupg
        subst hu
        simp only [List.isEmpty_nil, if_true]
        refine flatMap_const_length _ _ 1 ?_
        intro a _
        rfl
      · have hupgf : upg.isEmpty = false := Bool.eq_false_iff.mpr hupg
        rw [if_neg (by simp [hupgf])]
        refine flatMap_const_length _ _ upg.length ?_
        intro a _
        simp [hupgf]

/-- C2 counterexample: `c2cexOuter` contains two occurrences of the key
`offerRating`, the inner one carrying a truthy `originalPrice` that yields
a fact when extracted on its own — yet the extractor run on the whole
value collects nothing, because it never descends into the value of a
matched key.  So facts are not collected for every occurrence regardless
of depth. -/
theorem c2_counterexample :
    countKeyOcc "offerRating" c2cexOuter = 2 ∧
    extract_offer_rating c2cexInner = [(some (.str "5"), none)] ∧
    extract_offer_rating c2cexOuter = [] := by
  refine ⟨?_, ?_, ?_⟩ <;> rfl

/-- C2 amended: the extractors do collect matches at arbitrary depth along
paths that pass through no matched key: wrapping a payload in any chain of
non-matched object fields and array elements leaves each extractor's
output unchanged, and an `offerRating` occurrence with a truthy
`originalPrice` is collected under any such chain.  (Occurrences nested
inside the value of a matched key are not visited — see the
counterexample — and a matched occurrence yields a fact only when its
value has the expected shape.) -/
theorem c2_extraction_depth_amended :
    ∀ (ctx : List (Option String)) (j : Json),
      (ctxAvoids offerKeys ctx = true →
        extract_offer_rating (wrapCtx ctx j) = extract_offer_rating j) ∧
      (ctxAvoids upgKeys ctx = true →
        extract_upgrade_from (wrapCtx ctx j) = extract_upgrade_from j) ∧
      (ctxAvoids nameKeys ctx = true →
        extract_asset_name (wrapCtx ctx j) = extract_asset_name j) ∧
      (∀ v, truthy v = true → ctxAvoids offerKeys ctx = true →
        extract_offer_rating
          (wrapCtx ctx (.obj [("offerRating", .obj [("originalPrice", v)])])) =
          [(some v, none)]) := by
  intro ctx
  induction ctx with
  | nil =>
    intro j
    refine ⟨fun _ => rfl, fun _ => rfl, fun _ => rfl, fun v hv _ => ?_⟩
    simp [wrapCtx, extract_offer_rating, eorFields, priceFacts, isObjB,
      lookupKey, List.lookup, truthyOpt, hv]
  | cons o c ih =>
    intro j
    cases o with
    | none =>
      have hav : ∀ keys, ctxAvoids keys (none :: c) = ctxAvoids keys c := by
        intro keys
        simp [ctxAvoids]
      refine ⟨fun h => ?_, fun h => ?_, fun h => ?_, fun v hv h => ?_⟩
      · rw [hav] at h
        show extract_offer_rating (.arr [wrapCtx c j]) = _
        simp only [extract_offer_rating, eorItems, List.append_nil]
        exact (ih j).1 h
      · rw [hav] at h
        show extract_upgrade_from (.arr [wrapCtx c j]) = _
        simp only [extract_upgrade_from, eufItems, List.append_nil]
        exact (ih j).2.1 h
      · rw [hav] at h
        show extract_asset_name (.arr [wrapCtx c j]) = _
        simp only [extract_asset_name, eanItems, List.append_nil]
        exact (ih j).2.2.1 h
      · rw [hav] at h
        show extract_offer_rating (.arr [wrapCtx c _]) = _
        simp only [extract_offer_rating, eorItems, List.append_nil]
        exact (ih j).2.2.2 v hv h
    | some k =>
      refine ⟨fun h => ?_, fun h => ?_, fun h => ?_, fun v hv h => ?_⟩
      · obtain ⟨hk, hc⟩ : ¬k = "offerRating" ∧ ctxAvoids offerKeys c = true := by
          simpa [ctxAvoids, offerKeys] using h
        show extract_offer_rating (.obj [(k, wrapCtx c j)]) = _
        simp only [extract_offer_rating, eorFields, List.append_nil]
        rw [if_neg (by simp [hk])]
        exact (ih j).1 hc
      · obtain ⟨hk1, hk2, hc⟩ :
            ¬k = "upgradeFrom" ∧ ¬k = "upgradableFrom" ∧ ctxAvoids upgKeys c = true := by
          simpa [ctxAvoids, upgKeys, and_assoc] using h
        show extract_upgrade_from (.obj [(k, wrapCtx c j)]) = _
        simp only [extract_upgrade_from, eufFields, List.append_nil]
        rw [if_neg (by simp [hk1, hk2])]
        exact (ih j).2.1 hc
      · obtain ⟨hk1, hk2, hk3, hc⟩ :
            ¬k = "results" ∧ ¬k = "product" ∧ ¬k = "item" ∧
              ctxAvoids nameKeys c = true := by
          simpa [ctxAvoids, nameKeys, and_assoc] using h
        show extract_asset_name (.obj [(k, wrapCtx c j)]) = _
        simp only [extract_asset_name, eanFields, List.append_nil]
        rw [if_neg (by simp [hk1]), if_neg (by simp [hk2, hk3])]
        exact (ih j).2.2.1 hc
      · obtain ⟨hk, hc⟩ : ¬k = "offerRating" ∧ ctxAvoids offerKeys c = true := by
          simpa [ctxAvoids, offerKeys] using h
        show extract_offer_rating (.obj [(k, wrapCtx c _)]) = _
        simp only [extract_offer_rating, eorFields, List.append_nil]
        rw [if_neg (by simp [hk])]
        exact (ih j).2.2.2 v hv hc

/-- C2 witness: the amended theorem applied to a two-level non-matching
context around a truthy `offerRating` price. -/
theorem c2_extraction_depth_amended_witness :
    extract_offer_rating
      (wrapCtx [some "deep", none]
        (.obj [("offerRating", .obj [("originalPrice", .num 3)])])) =
      [(some (.num 3), none)] :=
  (c2_extraction_depth_amended [some "deep", none] .null).2.2.2 (.num 3)
    (by decide) (by decide)

lemma collectPages_stop (pages : Nat → List String) (ps : Nat) :
    ∀ (fuel pn : Nat) (acc links : List String) (n : Nat),
      collectPages pages ps fuel pn acc = some (links, n) →
        pn ≤ n ∧
        ((pageLinks (pages n)).length = 0 ∨ (pageLinks (pages n)).length < ps) ∧
        ∀ m, pn ≤ m → m < n → ps ≤ (pageLinks (pages m)).length := by
  intro fuel
  induction fuel with
  | zero =>
    intro pn acc links n h
    simp [collectPages] at h
  | succ f ih =>
    intro pn acc links n h
    simp only [collectPages] at h
    by_cases h0 : (pageLinks (pages pn)).length = 0
    · rw [if_pos h0] at h
      obtain ⟨rfl, rfl⟩ : acc = links ∧ pn = n := by
        have := Option.some.inj h
        exact ⟨congrArg Prod.fst this, congrArg Prod.snd this⟩
      refine ⟨le_refl _, Or.inl h0, ?_⟩
      intro m h1 h2
      omega
    · rw [if_neg h0] at h
      by_cases hlt : (pageLinks (pages pn)).length < ps
      · rw [if_pos hlt] at h
        obtain ⟨rfl, rfl⟩ : (acc ++ pageLinks (pages pn)).dedup = links ∧ pn = n := by
          have := Option.some.inj h
          exact ⟨congrArg Prod.fst this, congrArg Prod.snd this⟩
        refine ⟨le_refl _, Or.inr hlt, ?_⟩
        intro m h1 h2
        omega
      · rw [if_neg hlt] at h
        obtain ⟨hle, hstop, hmid⟩ := ih (pn + 1) ((acc ++ pageLinks (pages pn)).dedup) links n h
        refine ⟨by omega, hstop, ?_⟩
        intro m hm1 hm2
        by_cases hm : m = pn
        · subst hm
          omega
        · exact hmid m (by omega) hm2

lemma collectPages_never_stops (pages : Nat → List String) (ps : Nat) (hps : 0 < ps) :
    ∀ (fuel pn : Nat) (acc : List String),
      (∀ m, pn ≤ m → ps ≤ (pageLinks (pages m)).length) →
      collectPages pages ps fuel pn acc = none := by
  intro fuel
  induction fuel with
  | zero =>
    intro pn acc _
    rfl
  | succ f ih =>
    intro pn acc hbig
    have hge := hbig pn (le_refl pn)
    simp only [collectPages]
    rw [if_neg (by omega), if_neg (by omega)]
    exact ih (pn + 1) _ (fun m hm => hbig m (by omega))

/-- C3: the pagination loop stops exactly when a page yields fewer
(deduplicated) product links than the configured page size of 96 (zero
links included): whenever the loop stops after fetching pages `1 .. n`,
page `n` had fewer than `PAGE_SIZE` links and every earlier page had at
least `PAGE_SIZE`; when the first listing page already has fewer than
`PAGE_SIZE` links exactly one page fetch occurs; and when every page has
at least `PAGE_SIZE` links the loop never stops. -/
theorem c3_pagination_stops_exactly :
    PAGE_SIZE = 96 ∧
    (∀ (pages : Nat → List String) (fuel : Nat) (links : List String) (n : Nat),
      collectPages pages PAGE_SIZE fuel 1 [] = some (links, n) →
        (pageLinks (pages n)).length < PAGE_SIZE ∧
        ∀ m, 1 ≤ m → m < n → PAGE_SIZE ≤ (pageLinks (pages m)).length) ∧
    (∀ (pages : Nat → List String) (fuel : Nat),
      1 ≤ fuel → (pageLinks (pages 1)).length < PAGE_SIZE →
        ∃ links, collectPages pages PAGE_SIZE fuel 1 [] = some (links, 1)) ∧
    (∀ (pages : Nat → List String) (fuel : Nat),
      (∀ m, 1 ≤ m → PAGE_SIZE ≤ (pageLinks (pages m)).length) →
        collectPages pages PAGE_SIZE fuel 1 [] = none) := by
  have hsz : PAGE_SIZE = 96 := rfl
  refine ⟨rfl, ?_, ?_, ?_⟩
  · intro pages fuel links n h
    obtain ⟨_, hstop, hmid⟩ := collectPages_stop pages PAGE_SIZE fuel 1 [] links n h
    refine ⟨?_, fun m h1 h2 => hmid m h1 h2⟩
    rcases hstop with h0 | hlt
    · omega
    · exact hlt
  · intro pages fuel hfuel hfirst
    cases fuel with
    | zero => omega
    | succ f =>
      simp only [collectPages]
      by_cases h0 : (pageLinks (pages 1)).length = 0
      · rw [if_pos h0]
        exact ⟨[], rfl⟩
      · rw [if_neg h0, if_pos hfirst]
        exact ⟨_, rfl⟩
  · intro pages fuel hbig
    exact collectPages_never_stops pages PAGE_SIZE (by omega) fuel 1 [] (fun m hm => hbig m hm)

/-- C3 witness: a first page with a single product link causes exactly one
fetch (the loop stops at page 1). -/
theorem c3_pagination_stops_exactly_witness :
    (collectPages (fun _ => ["/packages/a"]) PAGE_SIZE 1 1 []).map Prod.snd = some 1 := by
  obtain ⟨ls, h⟩ :=
    c3_pagination_stops_exactly.2.2.1 (fun _ => ["/packages/a"]) 1 (by decide) (by decide)
  rw [h]
  rfl

lemma batched_short {α : Type} (n : Nat) (x : α) (xs : List α)
    (h : (x :: xs).length ≤ n) : batched n (x :: xs) = [x :: xs] := by
  have hn : ¬ n = 0 := by
    simp at h
    omega
  simp only [batched]
  rw [dif_neg hn, List.take_of_length_le h, List.drop_eq_nil_of_le h]
  simp [batched]

/-- The emission trace of a run that lists the same asset under two
publishers, starting from an empty progress file and an empty in-memory
processed set. -/
def c1cexTrace : List (List String × String) := (runAllGo [] [["L"], ["L"]] []).1

/-- C1 counterexample: when the same asset link appears under two
publishers in one run, the second batch is formed while the link is
already in `processed_assets.txt` (it was marked during the first
publisher), yet the link is not excluded: it is revisited and re-emitted.
The in-memory `processed` set is loaded once at run start and never
updated, so "present in the processed-set (the contents of
processed_assets.txt) at the time a batch is formed implies excluded" is
false as stated. -/
theorem c1_counterexample :
    c1cexTrace = [([], "L"), (["L"], "L")] ∧
    (c1cexTrace.getLastD ([], "")).2 ∈ (c1cexTrace.getLastD ([], "")).1 := by
  have hb : batched BATCH_SIZE ["L"] = [["L"]] :=
    batched_short BATCH_SIZE "L" [] (by simp [BATCH_SIZE])
  have h1 : c1cexTrace = [([], "L"), (["L"], "L")] := by
    simp [c1cexTrace, runAllGo, runPublisher, runBatchesGo, hb]
  refine ⟨h1, ?_⟩
  rw [h1]
  decide

lemma runBatchesGo_mem (pm : List String) :
    ∀ (bs : List (List String)) (file : List String) (p : List String × String),
      p ∈ (runBatchesGo pm bs file).1 → p.2 ∉ pm := by
  intro bs
  induction bs with
  | nil =>
    intro file p h
    simp [runBatchesGo] at h
  | cons b rest ih =>
    intro file p h
    simp only [runBatchesGo] at h
    rcases List.mem_append.mp h with h | h
    · rcases List.mem_map.mp h with ⟨l, hl, rfl⟩
      have hc := (List.mem_filter.mp hl).2
      simpa using hc
    · exact ih _ p h

/-- C1 amended: exclusion holds with respect to the in-memory `processed`
set loaded once at run start (source line 188): no link in that set is
ever emitted (or marked) during the run, in any batch of any publisher —
which also excludes, in every later run, all links recorded in
`processed_assets.txt` before that run started.  What the original claim
wrongly adds is exclusion against the file as it grows during the run:
a link first marked mid-run can be re-emitted later in the same run (see
the counterexample), because the in-memory set is never updated. -/
theorem c1_processed_set_amended :
    ∀ (pm : List String) (pubs : List (List String)) (file : List String)
      (p : List String × String),
      p ∈ (runAllGo pm pubs file).1 → p.2 ∉ pm := by
  intro pm pubs
  induction pubs with
  | nil =>
    intro file p h
    simp [runAllGo] at h
  | cons assets rest ih =>
    intro file p h
    simp only [runAllGo, runPublisher] at h
    rcases List.mem_append.mp h with h | h
    · exact runBatchesGo_mem pm _ _ p h
    · exact ih _ p h

/-- C1 witness: a link not in the loaded processed set is emitted and is
indeed not in that set. -/
theorem c1_processed_set_amended_witness :
    (([], "B") : List String × String).2 ∉ (["A"] : List String) :=
  c1_processed_set_amended ["A"] [["B"]] [] ([], "B")
    (by simp [runAllGo, runPublisher, runBatchesGo,
      batched_short BATCH_SIZE "B" [] (by simp [BATCH_SIZE])])

/-- C8: when `publishers.txt` is absent, empty, or has no line that is
non-blank after stripping and contains a comma, the run uses exactly the
single default publisher; otherwise every qualifying line contributes the
pair obtained by splitting the stripped line at its **first** comma and
stripping both halves (the name half contains no comma, and name, comma
and URL half reassemble the stripped line). -/
theorem c8_publishers_default_and_split :
    parsePublishers none = [DEFAULT_PUBLISHER] ∧
    parsePublishers (some []) = [DEFAULT_PUBLISHER] ∧
    (∀ lines : List String,
      (∀ l ∈ lines, pyStripS l = "" ∨ pyInStr "," l = false) →
      parsePublishers (some lines) = [DEFAULT_PUBLISHER]) ∧
    (∀ (lines : List String) (l : String), l ∈ lines →
      pyStripS l ≠ "" → pyInStr "," l = true →
      (pyStripS (pySplitFirstComma (pyStripS l)).1,
       pyStripS (pySplitFirstComma (pyStripS l)).2) ∈ parsePublishers (some lines)) ∧
    (∀ s : String, ',' ∈ s.data →
      (pySplitFirstComma s).1.data ++ ',' :: (pySplitFirstComma s).2.data = s.data) ∧
    (∀ s : String, ',' ∉ (pySplitFirstComma s).1.data) := by
  refine ⟨rfl, rfl, ?_, ?_, ?_, ?_⟩
  · intro lines h
    simp only [parsePublishers]
    have hnil : lines.filterMap (fun line =>
        if pyStripS line != "" && pyInStr "," line then
          some (pyStripS (pySplitFirstComma (pyStripS line)).1,
            pyStripS (pySplitFirstComma (pyStripS line)).2)
        else none) = [] := by
      refine List.filterMap_eq_nil_iff.mpr ?_
      intro a ha
      rcases h a ha with h1 | h1 <;> simp [h1]
    rw [hnil]
    rfl
  · intro lines l hl h1 h2
    simp only [parsePublishers]
    have hmem : (pyStripS (pySplitFirstComma (pyStripS l)).1,
        pyStripS (pySplitFirstComma (pyStripS l)).2) ∈ lines.filterMap (fun line =>
        if pyStripS line != "" && pyInStr "," line then
          some (pyStripS (pySplitFirstComma (pyStripS line)).1,
            pyStripS (pySplitFirstComma (pyStripS line)).2)
        else none) := by
      refine List.mem_filterMap.mpr ⟨l, hl, ?_⟩
      simp [h1, h2]
    split
    next hemp =>
      exact absurd (List.isEmpty_iff.mp hemp) (List.ne_nil_of_mem hmem)
    next hemp =>
      exact hmem
  · intro s hs
    obtain ⟨p, rest, hps⟩ := List.exists_cons_of_ne_nil (splitCh_ne_nil ',' s.data)
    have hjoin := joinCh_splitCh ',' s.data
    cases rest with
    | nil =>
      exfalso
      have hhead := splitCh_head_no_sep ',' s.data
      rw [hps] at hjoin hhead
      rw [joinCh_single] at hjoin
      rw [List.headD_cons] at hhead
      rw [hjoin] at hhead
      exact hhead hs
    | cons q qs =>
      have hsplit : pySplitFirstComma s = (String.mk p, String.mk (joinCh ',' (q :: qs))) := by
        simp [pySplitFirstComma, hps]
      rw [hsplit]
      rw [hps, joinCh_cons₂] at hjoin
      exact hjoin
  · intro s
    obtain ⟨p, rest, hps⟩ := List.exists_cons_of_ne_nil (splitCh_ne_nil ',' s.data)
    have hhead := splitCh_head_no_sep ',' s.data
    rw [hps, List.headD_cons] at hhead
    have hsplit : (pySplitFirstComma s).1 = String.mk p := by
      simp [pySplitFirstComma, hps]
    rw [hsplit]
    exact hhead

/-- C8 witness: one qualifying line with surrounding whitespace and two
commas parses to the pair split at the first comma, both halves
stripped. -/
theorem c8_publishers_default_and_split_witness :
    (pyStripS (pySplitFirstComma (pyStripS "  a , b,c  ")).1,
     pyStripS (pySplitFirstComma (pyStripS "  a , b,c  ")).2) ∈
      parsePublishers (some ["  a , b,c  "]) ∧
    (pyStripS (pySplitFirstComma (pyStripS "  a , b,c  ")).1,
     pyStripS (pySplitFirstComma (pyStripS "  a , b,c  ")).2) = ("a", "b,c") :=
  ⟨c8_publishers_default_and_split.2.2.2.1 ["  a , b,c  "] "  a , b,c  "
      (List.mem_singleton.mpr rfl) (by decide) (by decide),
   by decide⟩

/-- C9: `load_processed` of a missing file is the empty set; for an
existing file it is exactly the set of whitespace-stripped `readlines`
lines; the progress file stays absent-empty-or-newline-terminated under
`mark_processed` (its only writer); and for every URL with no newline and
no leading or trailing whitespace, appending it with `mark_processed` to
any reachable file state and reading back with `load_processed` yields a
set containing that URL. -/
theorem c9_mark_load_roundtrip :
    load_processed none = ∅ ∧
    (∀ (s : String) (x : String),
      x ∈ load_processed (some s) ↔
        ∃ l ∈ pyReadlines s.data, String.mk (pyStripChars l) = x) ∧
    (∀ (f : Option String) (url : String), goodFile f → goodFile (mark_processed f url)) ∧
    (∀ (f : Option String) (url : String), goodFile f →
      url.data.dropWhile isPyWS = url.data →
      url.data.reverse.dropWhile isPyWS = url.data.reverse →
      '\n' ∉ url.data →
      url ∈ load_processed (mark_processed f url)) := by
  have hnl : ("\n" : String).data = ['\n'] := rfl
  refine ⟨rfl, ?_, ?_, ?_⟩
  · intro s x
    simp [load_processed]
  · intro f url _
    refine Or.inr ?_
    rw [String.data_append]
    rw [hnl]
    exact List.getLast?_concat _
  · intro f url hgood h1 h2 h3
    have hcd : (f.getD "").data = [] ∨ (f.getD "").data.getLast? = some '\n' := by
      cases f with
      | none => exact Or.inl rfl
      | some s => exact hgood
    have hdata : ((f.getD "" ++ url ++ "\n")).data =
        (f.getD "").data ++ (url.data ++ ['\n']) := by
      rw [String.data_append, String.data_append, hnl, List.append_assoc]
    obtain ⟨-, happ⟩ := splitCh_newline_append (f.getD "").data hcd
    have hone : splitCh '\n' (url.data ++ ['\n']) = [url.data, []] := by
      have hstep := splitCh_append_no_sep '\n' url.data h3 ['\n'] [] [[]] rfl
      simpa using hstep
    have hsplit : splitCh '\n' ((f.getD "" ++ url ++ "\n")).data =
        (splitCh '\n' (f.getD "").data).dropLast ++ [url.data, []] := by
      rw [hdata, happ (url.data ++ ['\n']), hone]
    have hreads : pyReadlines ((f.getD "" ++ url ++ "\n")).data =
        ((splitCh '\n' (f.getD "").data).dropLast ++ [url.data]).map
          (fun p => p ++ ['\n']) := by
      simp only [pyReadlines]
      rw [hsplit]
      have hre : (splitCh '\n' (f.getD "").data).dropLast ++ [url.data, []] =
          ((splitCh '\n' (f.getD "").data).dropLast ++ [url.data]) ++ [[]] := by
        simp
      rw [hre, List.dropLast_concat, List.getLastD_eq_getLast?, List.getLast?_concat]
      simp
    have hmem : url.data ++ ['\n'] ∈ pyReadlines ((f.getD "" ++ url ++ "\n")).data := by
      rw [hreads]
      refine List.mem_map.mpr ⟨url.data, ?_, rfl⟩
      simp
    have hstrip : pyStripChars (url.data ++ ['\n']) = url.data := by
      cases hu : url.data with
      | nil =>
        rfl
      | cons a rest =>
        rw [hu] at h1 h2
        have hnotws : isPyWS a = false := by
          by_contra hws
          have hwst : isPyWS a = true := by
            revert hws
            cases isPyWS a <;> simp
          rw [List.dropWhile_cons, if_pos hwst] at h1
          have hle := (List.dropWhile_sublist (l := rest) isPyWS).length_le
          have hlen := congrArg List.length h1
          simp at hlen
          omega
        show ((((a :: rest) ++ ['\n']).dropWhile isPyWS).reverse.dropWhile isPyWS).reverse =
          a :: rest
        have hfront : ((a :: rest) ++ ['\n']).dropWhile isPyWS = (a :: rest) ++ ['\n'] := by
          rw [List.cons_append, List.dropWhile_cons, if_neg (by simp [hnotws])]
        rw [hfront]
        have hrev : ((a :: rest) ++ ['\n']).reverse = '\n' :: (a :: rest).reverse := by
          simp
        rw [hrev, List.dropWhile_cons, if_pos (by decide), h2, List.reverse_reverse]
    show url ∈ load_processed (mark_processed f url)
    simp only [mark_processed, load_processed]
    rw [List.mem_toFinset]
    refine List.mem_map.mpr ⟨url.data ++ ['\n'], hmem, ?_⟩
    rw [hstrip]

/-- C9 witness: marking a clean URL into a missing progress file and
loading it back recovers the URL. -/
theorem c9_mark_load_roundtrip_witness :
    ("abc" : String) ∈ load_processed (mark_processed none "abc") :=
  c9_mark_load_roundtrip.2.2.2 none "abc" trivial (by decide) (by decide) (by decide)
